import Mathlib

/-!
Shallow embedding of the parallel counting program in `src/main.cpp`
(`parallel_count_if_custom`, `time_repeat`) and proofs of its
specification claims.

A C++ iterator range `[first, last)` is embedded as a Lean `List α`;
`size_t` counts are embedded as `Nat` (the quantities involved — chunk
sizes, counts of list elements — never exceed the list length, so no
modular wraparound can occur and `Nat` is faithful).
-/

namespace Lab2

/-- Embedding of `std::count_if(first, last, pred)`: a sequential scan
counting the elements on which the predicate returns true. -/
def count_if : List α → (α → Bool) → Nat
  | [], _ => 0
  | x :: xs, p => (if p x then 1 else 0) + count_if xs p

/-- The size of chunk `i` in `parallel_count_if_custom` for input length
`n` and worker count `K`: `chunk_size + (i < rem ? 1 : 0)` with
`chunk_size = n / K` and `rem = n % K` (src/main.cpp lines 41-46). -/
def chunkLen (n K i : Nat) : Nat :=
  n / K + (if i < n % K then 1 else 0)

/-- The list of the `K` chunk sizes, in loop order `i = 0 .. K-1`. -/
def chunkLens (n K : Nat) : List Nat :=
  (List.range K).map (chunkLen n K)

/-- The successive chunks cut from a list by a list of chunk sizes.
This mirrors the moving iterator of the loop in src/main.cpp lines
43-52: `chunk_start` begins at `first` and advances by `this_chunk`
each iteration, so chunk `i` is the next `cs[i]` elements. -/
def chunkSlices : List α → List Nat → List (List α)
  | _, [] => []
  | l, c :: cs => l.take c :: chunkSlices (l.drop c) cs

/-- Embedding of `parallel_count_if_custom(first, last, pred, K)`
(src/main.cpp lines 31-55): if the range is empty return 0; if
`K <= 1` run a plain sequential `std::count_if`; otherwise cut the
range into `K` contiguous chunks (`chunk_size = n / K`, the first
`n % K` chunks one element larger), count each chunk, and return the
sum of the per-chunk results (`std::accumulate` over `results`). -/
def parallel_count_if_custom (l : List α) (p : α → Bool) (K : Nat) : Nat :=
  if l.length = 0 then 0
  else if K ≤ 1 then count_if l p
  else ((chunkSlices l (chunkLens l.length K)).map (fun s => count_if s p)).sum

/-- The half-open index ranges `[start, end)` produced by the chunking
loop, starting at index `s`, for a list of chunk sizes. Partition `i`
is `[chunk_start, chunk_end)` with `chunk_end = chunk_start + cs[i]`,
and the next partition starts at `chunk_end`. -/
def partitionsFrom (s : Nat) : List Nat → List (Nat × Nat)
  | [] => []
  | c :: cs => (s, s + c) :: partitionsFrom (s + c) cs

/-- The `K` index ranges the partitioning step of
`parallel_count_if_custom` produces for input length `n`. -/
def partitions (n K : Nat) : List (Nat × Nat) :=
  partitionsFrom 0 (chunkLens n K)

/-! ### Basic lemmas about the embedded operations -/

theorem count_if_eq_countP (l : List α) (p : α → Bool) :
    count_if l p = l.countP p := by
  induction l with
  | nil => rfl
  | cons x xs ih => simp [count_if, List.countP_cons, ih]; omega

theorem count_if_append (a b : List α) (p : α → Bool) :
    count_if (a ++ b) p = count_if a p + count_if b p := by
  simp [count_if_eq_countP, List.countP_append]

theorem count_if_le_length (l : List α) (p : α → Bool) :
    count_if l p ≤ l.length := by
  rw [count_if_eq_countP]; exact List.countP_le_length p

theorem sum_map_range_add_ite (c r K : Nat) :
    ((List.range K).map (fun i => c + if i < r then 1 else 0)).sum
      = K * c + min r K := by
  induction K with
  | zero => simp
  | succ K ih =>
    rw [List.range_succ, List.map_append, List.sum_append, ih]
    by_cases h : K < r <;> simp [h, Nat.succ_mul] <;> omega

theorem chunkLens_length (n K : Nat) : (chunkLens n K).length = K := by
  simp [chunkLens]

theorem chunkLens_sum (n K : Nat) (hK : 1 ≤ K) :
    (chunkLens n K).sum = n := by
  have hlt : n % K < K := Nat.mod_lt _ hK
  have hdm := Nat.div_add_mod n K
  rw [chunkLens, show chunkLen n K = fun i => n / K + (if i < n % K then 1 else 0) from rfl,
    sum_map_range_add_ite]
  omega

theorem chunkSlices_counts_sum (cs : List Nat) (l : List α) (p : α → Bool) :
    ((chunkSlices l cs).map (fun s => count_if s p)).sum
      = count_if (l.take cs.sum) p := by
  induction cs generalizing l with
  | nil => simp [chunkSlices, count_if]
  | cons c cs ih =>
    simp only [chunkSlices, List.map_cons, List.sum_cons, ih, List.sum_cons]
    rw [List.take_add, count_if_append]

/-- The central correctness fact: for every list, predicate and worker
count, `parallel_count_if_custom` returns the sequential scan count. -/
theorem parallel_count_eq_count_if (l : List α) (p : α → Bool) (K : Nat) :
    parallel_count_if_custom l p K = count_if l p := by
  unfold parallel_count_if_custom
  by_cases h0 : l.length = 0
  · have : l = [] := List.length_eq_zero.mp h0
    simp [this, count_if]
  · by_cases hK : K ≤ 1
    · simp [h0, hK]
    · have h1 : 1 ≤ K := by omega
      rw [if_neg h0, if_neg hK, chunkSlices_counts_sum, chunkLens_sum _ _ h1,
        List.take_length]

/-! ### Lemmas about the produced index ranges -/

theorem partitionsFrom_length (s : Nat) (cs : List Nat) :
    (partitionsFrom s cs).length = cs.length := by
  induction cs generalizing s with
  | nil => rfl
  | cons c cs ih => simp [partitionsFrom, ih]

theorem partitions_length (n K : Nat) : (partitions n K).length = K := by
  simp [partitions, partitionsFrom_length, chunkLens]

theorem partitionsFrom_sizes (s : Nat) (cs : List Nat) :
    (partitionsFrom s cs).map (fun p => p.2 - p.1) = cs := by
  induction cs generalizing s with
  | nil => rfl
  | cons c cs ih => simp [partitionsFrom, ih]

theorem partitionsFrom_start_le (s : Nat) (cs : List Nat) :
    ∀ p ∈ partitionsFrom s cs, s ≤ p.1 := by
  induction cs generalizing s with
  | nil => intro p hp; cases hp
  | cons c cs ih =>
    intro p hp
    simp only [partitionsFrom, List.mem_cons] at hp
    rcases hp with hp | hp
    · subst hp; rfl
    · exact le_trans (Nat.le_add_right s c) (ih (s + c) p hp)

theorem partitionsFrom_fst_le_snd (s : Nat) (cs : List Nat) :
    ∀ p ∈ partitionsFrom s cs, p.1 ≤ p.2 := by
  induction cs generalizing s with
  | nil => intro p hp; cases hp
  | cons c cs ih =>
    intro p hp
    simp only [partitionsFrom, List.mem_cons] at hp
    rcases hp with hp | hp
    · subst hp; exact Nat.le_add_right s c
    · exact ih (s + c) p hp

theorem partitionsFrom_pairwise (s : Nat) (cs : List Nat) :
    List.Pairwise (fun p q : Nat × Nat => p.2 ≤ q.1) (partitionsFrom s cs) := by
  induction cs generalizing s with
  | nil => exact List.Pairwise.nil
  | cons c cs ih =>
    refine List.Pairwise.cons ?_ (ih (s + c))
    intro q hq
    exact partitionsFrom_start_le (s + c) cs q hq

theorem partitionsFrom_get (s : Nat) (cs : List Nat) (i : Nat)
    (h : i < cs.length) :
    (partitionsFrom s cs).get ⟨i, by rw [partitionsFrom_length]; exact h⟩
      = (s + (cs.take i).sum, s + (cs.take (i + 1)).sum) := by
  induction cs generalizing s i with
  | nil => cases h
  | cons c cs ih =>
    cases i with
    | zero => simp [partitionsFrom]
    | succ i =>
      have h2 : i < cs.length := Nat.lt_of_succ_lt_succ h
      have := ih (s + c) i h2
      simp only [partitionsFrom, List.get_cons_succ, this, List.take_succ_cons,
        List.sum_cons]
      simp only [Prod.mk.injEq]
      constructor <;> omega

theorem partitionsFrom_mem_union (s : Nat) (cs : List Nat) (m : Nat) :
    (∃ p ∈ partitionsFrom s cs, p.1 ≤ m ∧ m < p.2) ↔
      s ≤ m ∧ m < s + cs.sum := by
  induction cs generalizing s with
  | nil =>
    simp only [partitionsFrom, List.not_mem_nil, List.sum_nil]
    constructor
    · rintro ⟨p, hp, _⟩; cases hp
    · omega
  | cons c cs ih =>
    constructor
    · rintro ⟨p, hp, hm⟩
      simp only [partitionsFrom, List.mem_cons] at hp
      rcases hp with hp | hp
      · subst hp; simp only [List.sum_cons]; omega
      · have := (ih (s + c)).mp ⟨p, hp, hm⟩
        simp only [List.sum_cons]; omega
    · intro hm
      by_cases hc : m < s + c
      · refine ⟨(s, s + c), ?_, by omega⟩
        simp [partitionsFrom]
      · have := (ih (s + c)).mpr (by simp only [List.sum_cons] at hm; omega)
        rcases this with ⟨p, hp, hpm⟩
        refine ⟨p, ?_, hpm⟩
        simp only [partitionsFrom, List.mem_cons]
        exact Or.inr hp

/-- Every produced range has size `n / K` or `n / K + 1`. -/
theorem partitions_size_mem (n K : Nat) :
    ∀ p ∈ partitions n K, p.2 - p.1 = n / K ∨ p.2 - p.1 = n / K + 1 := by
  intro p hp
  have hmap : (p.2 - p.1) ∈ (partitions n K).map (fun q : Nat × Nat => q.2 - q.1) :=
    List.mem_map_of_mem _ hp
  rw [partitions, partitionsFrom_sizes] at hmap
  rcases List.mem_map.mp hmap with ⟨i, _, hi⟩
  unfold chunkLen at hi
  by_cases hlt : i < n % K <;> simp [hlt] at hi <;> omega

/-- The size formula for partition `i`: `n / K` plus one extra element
exactly when `i < n % K`. -/
theorem partitions_size_get (n K i : Nat) (hi : i < (partitions n K).length) :
    ((partitions n K).get ⟨i, hi⟩).2 - ((partitions n K).get ⟨i, hi⟩).1
      = if i < n % K then n / K + 1 else n / K := by
  have hlen : i < (chunkLens n K).length := by
    rw [← partitionsFrom_length 0]; exact hi
  have g := partitionsFrom_get 0 (chunkLens n K) i hlen
  simp only [partitions]
  rw [g]
  simp only
  rw [List.take_succ, List.sum_append]
  have hget : (chunkLens n K)[i]? = some (chunkLen n K i) := by
    rw [List.getElem?_eq_getElem hlen]
    simp [chunkLens]
  rw [hget]
  simp only [chunkLen, Option.toList_some, List.sum_cons, List.sum_nil]
  by_cases hc : i < n % K <;> simp [hc]

/-! ### Claim theorems -/

/-- C1: for every sequence `S`, pure predicate `P` and worker count `K`
with `1 ≤ K` (including `K` larger than the length of `S`),
`parallel_count_if_custom S P K` equals `parallel_count_if_custom S P 1`,
which equals the sequential scan count of the elements satisfying `P`. -/
theorem claim_C1 (l : List α) (p : α → Bool) (K : Nat) (hK : 1 ≤ K) :
    parallel_count_if_custom l p K = parallel_count_if_custom l p 1 ∧
    parallel_count_if_custom l p 1 = count_if l p := by
  rw [parallel_count_eq_count_if, parallel_count_eq_count_if]
  exact ⟨rfl, rfl⟩

/-- Witness for C1 at the spec's concrete scenario: `S = [0..9]`,
`P` = "is even", `K = 3`; the parallel count equals the `K = 1` count,
which equals the sequential count (namely 5 even numbers). -/
theorem claim_C1_witness :
    1 ≤ 3 ∧
    (parallel_count_if_custom [0, 1, 2, 3, 4, 5, 6, 7, 8, 9]
        (fun x : Nat => x % 2 == 0) 3
      = parallel_count_if_custom [0, 1, 2, 3, 4, 5, 6, 7, 8, 9]
        (fun x : Nat => x % 2 == 0) 1 ∧
    parallel_count_if_custom [0, 1, 2, 3, 4, 5, 6, 7, 8, 9]
        (fun x : Nat => x % 2 == 0) 1
      = count_if [0, 1, 2, 3, 4, 5, 6, 7, 8, 9] (fun x : Nat => x % 2 == 0)) :=
  ⟨by decide, claim_C1 _ _ 3 (by decide)⟩

/-- C2: for every `N ≥ 0` and `K ≥ 1`, the `K` index ranges produced by
the partitioning step are: exactly `K` many; valid half-open ranges;
ordered and pairwise disjoint (each range ends no later than any later
range starts, hence no index lies in two ranges); contiguous (each
range's end is the next range's start); and their union is exactly
`[0, N)`. -/
theorem claim_C2 (n K : Nat) (hK : 1 ≤ K) :
    (partitions n K).length = K ∧
    (∀ p ∈ partitions n K, p.1 ≤ p.2) ∧
    List.Pairwise (fun p q : Nat × Nat => p.2 ≤ q.1) (partitions n K) ∧
    List.Pairwise (fun p q : Nat × Nat =>
      ∀ m, ¬(p.1 ≤ m ∧ m < p.2 ∧ q.1 ≤ m ∧ m < q.2)) (partitions n K) ∧
    (∀ i (hj : i + 1 < (partitions n K).length),
      ((partitions n K).get ⟨i, Nat.lt_of_succ_lt hj⟩).2
        = ((partitions n K).get ⟨i + 1, hj⟩).1) ∧
    (∀ m, m < n ↔ ∃ p ∈ partitions n K, p.1 ≤ m ∧ m < p.2) := by
  refine ⟨partitions_length n K, partitionsFrom_fst_le_snd 0 _,
    partitionsFrom_pairwise 0 _, ?_, ?_, ?_⟩
  · exact (partitionsFrom_pairwise 0 _).imp (by intro p q h m; omega)
  · intro i hj
    have hlen : i + 1 < (chunkLens n K).length := by
      rw [← partitionsFrom_length 0]; exact hj
    have g1 := partitionsFrom_get 0 (chunkLens n K) i (Nat.lt_of_succ_lt hlen)
    have g2 := partitionsFrom_get 0 (chunkLens n K) (i + 1) hlen
    simp only [partitions]
    rw [g1, g2]
  · intro m
    have h := partitionsFrom_mem_union 0 (chunkLens n K) m
    rw [chunkLens_sum n K hK] at h
    simp only [partitions]
    constructor
    · intro hm; exact h.mpr ⟨Nat.zero_le m, by omega⟩
    · intro he; have := h.mp he; omega

/-- Witness for C2 at `N = 10`, `K = 3` (the spec's concrete scenario
with partitions `[0,4), [4,7), [7,10)`). -/
theorem claim_C2_witness :
    1 ≤ 3 ∧
    ((partitions 10 3).length = 3 ∧
    (∀ p ∈ partitions 10 3, p.1 ≤ p.2) ∧
    List.Pairwise (fun p q : Nat × Nat => p.2 ≤ q.1) (partitions 10 3) ∧
    List.Pairwise (fun p q : Nat × Nat =>
      ∀ m, ¬(p.1 ≤ m ∧ m < p.2 ∧ q.1 ≤ m ∧ m < q.2)) (partitions 10 3) ∧
    (∀ i (hj : i + 1 < (partitions 10 3).length),
      ((partitions 10 3).get ⟨i, Nat.lt_of_succ_lt hj⟩).2
        = ((partitions 10 3).get ⟨i + 1, hj⟩).1) ∧
    (∀ m, m < 10 ↔ ∃ p ∈ partitions 10 3, p.1 ≤ m ∧ m < p.2)) :=
  ⟨by decide, claim_C2 10 3 (by decide)⟩

/-- C3: for every `N ≥ 0` and `K ≥ 2`, with `base = N / K` and
`rem = N % K`, partition `i` has size `base + 1` when `i < rem` and
size `base` otherwise (so the first `rem` partitions get the extra
element); consequently any two partition sizes differ by at most 1. -/
theorem claim_C3 (n K : Nat) (hK : 2 ≤ K) :
    (∀ i (hi : i < (partitions n K).length),
      ((partitions n K).get ⟨i, hi⟩).2 - ((partitions n K).get ⟨i, hi⟩).1
        = if i < n % K then n / K + 1 else n / K) ∧
    (∀ p ∈ partitions n K, ∀ q ∈ partitions n K,
      p.2 - p.1 ≤ (q.2 - q.1) + 1) := by
  constructor
  · intro i hi
    exact partitions_size_get n K i hi
  · intro p hp q hq
    have h1 := partitions_size_mem n K p hp
    have h2 := partitions_size_mem n K q hq
    omega

/-- Witness for C3 at `N = 10`, `K = 3` (sizes 4, 3, 3). -/
theorem claim_C3_witness :
    2 ≤ 3 ∧
    ((∀ i (hi : i < (partitions 10 3).length),
      ((partitions 10 3).get ⟨i, hi⟩).2 - ((partitions 10 3).get ⟨i, hi⟩).1
        = if i < 10 % 3 then 10 / 3 + 1 else 10 / 3) ∧
    (∀ p ∈ partitions 10 3, ∀ q ∈ partitions 10 3,
      p.2 - p.1 ≤ (q.2 - q.1) + 1)) :=
  ⟨by decide, claim_C3 10 3 (by decide)⟩

/-- C4: a requested worker count of 0 or 1 is the degenerate sequential
case, not an error: `parallel_count_if_custom S P K` with `K ≤ 1`
returns exactly the plain sequential `count_if` over all of `S`. -/
theorem claim_C4 (l : List α) (p : α → Bool) (K : Nat) (hK : K ≤ 1) :
    parallel_count_if_custom l p K = count_if l p :=
  parallel_count_eq_count_if l p K

/-- Witness for C4 at `K = 0` on a concrete list. -/
theorem claim_C4_witness :
    (0 : Nat) ≤ 1 ∧
    parallel_count_if_custom [3, 4, 5] (fun x : Nat => x % 2 == 0) 0
      = count_if [3, 4, 5] (fun x : Nat => x % 2 == 0) :=
  ⟨by decide, claim_C4 _ _ 0 (by decide)⟩

/-- C5: counting over the empty sequence returns 0 for every predicate
and every worker count `K ≥ 1`. -/
theorem claim_C5 (p : α → Bool) (K : Nat) (hK : 1 ≤ K) :
    parallel_count_if_custom ([] : List α) p K = 0 := by
  simp [parallel_count_if_custom]

/-- Witness for C5 at `K = 5` (the spec's concrete scenario
`S = [], K = 5`). -/
theorem claim_C5_witness :
    1 ≤ 5 ∧ parallel_count_if_custom ([] : List Nat) (fun _ => true) 5 = 0 :=
  ⟨by decide, claim_C5 _ 5 (by decide)⟩

/-- C6: when `K` exceeds the input length `N`, partition `i` has size 1
for `i < N` and size 0 for `N ≤ i < K` (so the trailing `K - N`
partitions are empty); empty partitions contribute 0 to the count; and
the returned total still equals the sequential count. Concretely, for
`N = 7`, `K = 10` the partitioner produces 7 size-1 partitions followed
by 3 empty partitions. -/
theorem claim_C6 (l : List α) (p : α → Bool) (K : Nat) (hK : l.length < K) :
    (∀ i (hi : i < (partitions l.length K).length),
      ((partitions l.length K).get ⟨i, hi⟩).2
          - ((partitions l.length K).get ⟨i, hi⟩).1
        = if i < l.length then 1 else 0) ∧
    (∀ s ∈ chunkSlices l (chunkLens l.length K),
      s.length = 0 → count_if s p = 0) ∧
    parallel_count_if_custom l p K = count_if l p ∧
    partitions 7 10
      = [(0, 1), (1, 2), (2, 3), (3, 4), (4, 5), (5, 6), (6, 7),
         (7, 7), (7, 7), (7, 7)] := by
  have hdiv : l.length / K = 0 := Nat.div_eq_of_lt hK
  have hmod : l.length % K = l.length := Nat.mod_eq_of_lt hK
  refine ⟨?_, ?_, parallel_count_eq_count_if l p K, by decide⟩
  · intro i hi
    rw [partitions_size_get l.length K i hi, hdiv, hmod]
  · intro s _ hs
    have := count_if_le_length s p
    omega

/-- Witness for C6 at the spec's concrete scenario `N = 7`, `K = 10`. -/
theorem claim_C6_witness :
    ([0, 1, 2, 3, 4, 5, 6] : List Nat).length < 10 ∧
    ((∀ i (hi : i < (partitions ([0, 1, 2, 3, 4, 5, 6] : List Nat).length 10).length),
      ((partitions ([0, 1, 2, 3, 4, 5, 6] : List Nat).length 10).get ⟨i, hi⟩).2
          - ((partitions ([0, 1, 2, 3, 4, 5, 6] : List Nat).length 10).get ⟨i, hi⟩).1
        = if i < ([0, 1, 2, 3, 4, 5, 6] : List Nat).length then 1 else 0) ∧
    (∀ s ∈ chunkSlices ([0, 1, 2, 3, 4, 5, 6] : List Nat)
        (chunkLens ([0, 1, 2, 3, 4, 5, 6] : List Nat).length 10),
      s.length = 0 → count_if s (fun x => x % 2 == 0) = 0) ∧
    parallel_count_if_custom ([0, 1, 2, 3, 4, 5, 6] : List Nat)
        (fun x => x % 2 == 0) 10
      = count_if ([0, 1, 2, 3, 4, 5, 6] : List Nat) (fun x => x % 2 == 0) ∧
    partitions 7 10
      = [(0, 1), (1, 2), (2, 3), (3, 4), (4, 5), (5, 6), (6, 7),
         (7, 7), (7, 7), (7, 7)]) :=
  ⟨by decide, claim_C6 [0, 1, 2, 3, 4, 5, 6] (fun x => x % 2 == 0) 10 (by decide)⟩

/-- C10: the returned count is a natural number (hence non-negative)
bounded by the length of the input, and each per-partition partial
result is at most the size of its partition. -/
theorem claim_C10 (l : List α) (p : α → Bool) (K : Nat) :
    parallel_count_if_custom l p K ≤ l.length ∧
    ∀ s ∈ chunkSlices l (chunkLens l.length K), count_if s p ≤ s.length := by
  constructor
  · rw [parallel_count_eq_count_if]; exact count_if_le_length l p
  · intro s _; exact count_if_le_length s p

/-! ### Scheduling model for the concurrent execution (claim C7)

Each spawned thread `i` performs exactly one write: it stores the count
of its own chunk into `results[i]` (src/main.cpp lines 48-50); it reads
only the shared input and its private chunk bounds. Because every task
writes a distinct slot, any interleaving of the `K` tasks is observably
equivalent to running the task bodies to completion in some total
order. A schedule is therefore modelled as the list of task indices in
the order their bodies take effect, and a run of the executor is
modelled as folding those single-slot writes over the results vector
`std::vector<size_t> results(K, 0)`. -/

/-- The value task `i` computes and writes into `results[i]`:
`std::count_if` over chunk `i` of the input. -/
def taskValue (l : List α) (p : α → Bool) (K i : Nat) : Nat :=
  count_if ((chunkSlices l (chunkLens l.length K)).getD i []) p

/-- Run the task bodies in the order given by `sched`, each writing its
chunk count into its own slot of the results vector. -/
def runSchedule (l : List α) (p : α → Bool) (K : Nat) :
    List Nat → List Nat → List Nat
  | [], results => results
  | i :: rest, results =>
      runSchedule l p K rest (results.set i (taskValue l p K i))

theorem runSchedule_length (l : List α) (p : α → Bool) (K : Nat)
    (sched results : List Nat) :
    (runSchedule l p K sched results).length = results.length := by
  induction sched generalizing results with
  | nil => rfl
  | cons i rest ih => rw [runSchedule, ih, List.length_set]

theorem runSchedule_getD (l : List α) (p : α → Bool) (K : Nat)
    (sched : List Nat) (results : List Nat) (j : Nat)
    (hj : j < results.length) :
    (runSchedule l p K sched results).getD j 0
      = if j ∈ sched then taskValue l p K j else results.getD j 0 := by
  induction sched generalizing results with
  | nil => simp [runSchedule]
  | cons i rest ih =>
    rw [runSchedule]
    have hj2 : j < (results.set i (taskValue l p K i)).length := by
      rw [List.length_set]; exact hj
    rw [ih _ hj2]
    have hset : (results.set i (taskValue l p K i)).getD j 0
        = if i = j then taskValue l p K i else results.getD j 0 := by
      rw [List.getD_eq_getElem _ _ hj2, List.getElem_set]
      by_cases hij : i = j
      · simp [hij]
      · rw [if_neg hij, if_neg hij, List.getD_eq_getElem _ _ hj]
    by_cases hr : j ∈ rest
    · rw [if_pos hr, if_pos (List.mem_cons_of_mem i hr)]
    · rw [if_neg hr, hset]
      by_cases hij : i = j
      · subst hij
        rw [if_pos rfl, if_pos (List.mem_cons_self i rest)]
      · have hnm : ¬ j ∈ i :: rest := by
          intro hmem
          rcases List.mem_cons.mp hmem with h | h
          · exact hij h.symm
          · exact hr h
        rw [if_neg hij, if_neg hnm]

/-- After running a schedule that executes every task exactly once (a
permutation of `0 .. K-1`), the results vector holds exactly the
per-chunk counts, independently of the schedule. -/
theorem runSchedule_of_perm (l : List α) (p : α → Bool) (K : Nat)
    (sched : List Nat) (hs : sched.Perm (List.range K)) :
    runSchedule l p K sched (List.replicate K 0)
      = (List.range K).map (taskValue l p K) := by
  have hmem : ∀ j, j ∈ sched ↔ j < K := by
    intro j
    rw [hs.mem_iff, List.mem_range]
  apply List.ext_getElem
  · rw [runSchedule_length, List.length_replicate, List.length_map,
      List.length_range]
  · intro j h1 h2
    have hjK : j < K := by
      rw [List.length_map, List.length_range] at h2; exact h2
    have hrep : j < (List.replicate K (0 : Nat)).length := by
      rw [List.length_replicate]; exact hjK
    have hd := runSchedule_getD l p K sched (List.replicate K 0) j hrep
    rw [List.getD_eq_getElem _ _ h1] at hd
    rw [hd, if_pos ((hmem j).mpr hjK), List.getElem_map, List.getElem_range]

theorem chunkSlices_length (l : List α) (cs : List Nat) :
    (chunkSlices l cs).length = cs.length := by
  induction cs generalizing l with
  | nil => rfl
  | cons c cs ih => simp [chunkSlices, ih]

/-- The per-chunk counts read back in partition order sum to the value
`parallel_count_if_custom` returns. -/
theorem taskValues_sum (l : List α) (p : α → Bool) (K : Nat) (hK : 2 ≤ K) :
    ((List.range K).map (taskValue l p K)).sum
      = parallel_count_if_custom l p K := by
  have hlen : (chunkSlices l (chunkLens l.length K)).length = K := by
    rw [chunkSlices_length, chunkLens_length]
  have hmap : (List.range K).map (taskValue l p K)
      = (chunkSlices l (chunkLens l.length K)).map (fun s => count_if s p) := by
    apply List.ext_getElem
    · rw [List.length_map, List.length_range, List.length_map, hlen]
    · intro j h1 h2
      have hjK : j < K := by
        rw [List.length_map, List.length_range] at h1; exact h1
      have hjs : j < (chunkSlices l (chunkLens l.length K)).length := by
        rw [hlen]; exact hjK
      rw [List.getElem_map, List.getElem_map, List.getElem_range]
      unfold taskValue
      rw [List.getD_eq_getElem _ _ hjs]
  rw [hmap, parallel_count_eq_count_if, chunkSlices_counts_sum,
    chunkLens_sum _ _ (by omega), List.take_length]

/-- C7: determinism under concurrency, as a two-run property: for any
two schedules (any orders in which the `K` task bodies take effect,
modelling arbitrary interleavings, since each task writes only its own
slot), the two runs produce the same results vector, and the resulting
total is the value `parallel_count_if_custom` returns — independent of
scheduling. -/
theorem claim_C7 (l : List α) (p : α → Bool) (K : Nat) (hK : 1 < K)
    (s1 s2 : List Nat)
    (h1 : s1.Perm (List.range K)) (h2 : s2.Perm (List.range K)) :
    runSchedule l p K s1 (List.replicate K 0)
      = runSchedule l p K s2 (List.replicate K 0) ∧
    (runSchedule l p K s1 (List.replicate K 0)).sum
      = parallel_count_if_custom l p K := by
  rw [runSchedule_of_perm l p K s1 h1, runSchedule_of_perm l p K s2 h2]
  exact ⟨rfl, taskValues_sum l p K hK⟩

/-- Witness for C7: two different schedules of the 3 tasks on a
concrete input yield the same results vector and the same total. -/
theorem claim_C7_witness :
    (1 < 3 ∧ ([2, 0, 1] : List Nat).Perm (List.range 3) ∧
      ([1, 2, 0] : List Nat).Perm (List.range 3)) ∧
    (runSchedule [1, 2, 3, 4, 5] (fun x : Nat => x % 2 == 1) 3 [2, 0, 1]
        (List.replicate 3 0)
      = runSchedule [1, 2, 3, 4, 5] (fun x : Nat => x % 2 == 1) 3 [1, 2, 0]
        (List.replicate 3 0) ∧
    (runSchedule [1, 2, 3, 4, 5] (fun x : Nat => x % 2 == 1) 3 [2, 0, 1]
        (List.replicate 3 0)).sum
      = parallel_count_if_custom [1, 2, 3, 4, 5] (fun x : Nat => x % 2 == 1) 3) :=
  ⟨⟨by decide, by decide, by decide⟩,
    claim_C7 [1, 2, 3, 4, 5] (fun x : Nat => x % 2 == 1) 3 (by decide)
      [2, 0, 1] [1, 2, 0] (by decide) (by decide)⟩

/-! ### Exception model for a throwing predicate (claim C8)

C++ exceptions are embedded with `Except`: the predicate either returns
a Boolean or raises. Per the C++ standard, an exception that escapes
the callable invoked by a `std::thread` calls `std::terminate`; the
lambda at src/main.cpp lines 48-50 contains no try/catch, so with
`K >= 2` a throwing predicate terminates the whole process, while with
`K <= 1` the `std::count_if` call runs on the caller's thread and the
exception propagates to the caller normally. -/

/-- `std::count_if` with a predicate that may throw: the scan stops at
the first element on which the predicate raises, and that exception is
the result. -/
def count_if_exc : List α → (α → Except ε Bool) → Except ε Nat
  | [], _ => Except.ok 0
  | x :: xs, p =>
    match p x with
    | Except.error e => Except.error e
    | Except.ok b =>
      match count_if_exc xs p with
      | Except.error e => Except.error e
      | Except.ok c => Except.ok (if b then 1 + c else c)

/-- Whether a fallible computation raised. -/
def excIsError : Except ε β → Bool
  | Except.error _ => true
  | Except.ok _ => false

/-- The count of a successful fallible scan (0 if it raised). -/
def excValue : Except ε Nat → Nat
  | Except.error _ => 0
  | Except.ok c => c

/-- The observable outcome of one call to `parallel_count_if_custom`
with a throwing predicate: a returned count, an exception propagated to
the caller, or process termination via `std::terminate`. -/
inductive ExecOutcome (ε : Type u) where
  | ok (count : Nat)
  | raised (e : ε)
  | terminated
deriving DecidableEq

/-- Embedding of `parallel_count_if_custom` when the predicate may
throw: an empty range returns 0 before any predicate call; with
`K <= 1` the sequential scan's exception (if any) propagates to the
caller; with `K >= 2`, if any chunk's scan raises, the exception
escapes that worker thread's callable and the process terminates,
otherwise the per-chunk counts are summed as in the exception-free
case. -/
def parallel_count_if_custom_exc (l : List α) (p : α → Except ε Bool)
    (K : Nat) : ExecOutcome ε :=
  if l.length = 0 then ExecOutcome.ok 0
  else if K ≤ 1 then
    match count_if_exc l p with
    | Except.ok c => ExecOutcome.ok c
    | Except.error e => ExecOutcome.raised e
  else
    let rs := (chunkSlices l (chunkLens l.length K)).map
      (fun s => count_if_exc s p)
    if rs.any excIsError then ExecOutcome.terminated
    else ExecOutcome.ok ((rs.map excValue).sum)

theorem excIsError_false_iff (r : Except ε Nat) :
    excIsError r = false ↔ r = Except.ok (excValue r) := by
  cases r <;> simp [excIsError, excValue]

theorem count_if_exc_append (a b : List α) (p : α → Except ε Bool) :
    count_if_exc (a ++ b) p =
      match count_if_exc a p with
      | Except.error e => Except.error e
      | Except.ok c =>
        match count_if_exc b p with
        | Except.error e => Except.error e
        | Except.ok d => Except.ok (c + d) := by
  induction a with
  | nil =>
    simp only [List.nil_append, count_if_exc]
    cases count_if_exc b p <;> simp
  | cons x xs ih =>
    cases hpx : p x with
    | error e => simp [count_if_exc, hpx]
    | ok bl =>
      cases hxs : count_if_exc xs p with
      | error e => simp [count_if_exc, hpx, ih, hxs]
      | ok c =>
        cases hb : count_if_exc b p with
        | error e => simp [count_if_exc, hpx, ih, hxs, hb]
        | ok d =>
          simp only [List.cons_append, count_if_exc, List.append_eq, hpx, ih,
            hxs, hb]
          cases bl <;> simp [Nat.add_assoc]

/-- If no chunk's scan raises, the whole-range scan succeeds and its
count is the sum of the per-chunk counts. -/
theorem count_if_exc_chunks (cs : List Nat) (l : List α)
    (p : α → Except ε Bool)
    (hok : ∀ s ∈ chunkSlices l cs, excIsError (count_if_exc s p) = false) :
    count_if_exc (l.take cs.sum) p
      = Except.ok (((chunkSlices l cs).map
          (fun s => excValue (count_if_exc s p))).sum) := by
  induction cs generalizing l with
  | nil => simp [chunkSlices, count_if_exc]
  | cons c cs ih =>
    have hhead : count_if_exc (l.take c) p
        = Except.ok (excValue (count_if_exc (l.take c) p)) :=
      (excIsError_false_iff _).mp
        (hok _ (by simp [chunkSlices]))
    have htail := ih (l.drop c) (fun s hs => hok s (by simp [chunkSlices, hs]))
    rw [List.sum_cons, List.take_add, count_if_exc_append, hhead, htail]
    simp [chunkSlices]

/-- C8 counterexample: on input `[0, 1]` with a predicate that raises
on element 1 and worker count `K = 2`, the call ends in
`std::terminate` (the exception escapes the worker thread's callable),
so no failure is propagated to the caller — refuting the claim that
`parallel_count_if_custom` propagates an aggregated failure to its
caller. -/
theorem claim_C8_counterexample :
    parallel_count_if_custom_exc [0, 1]
        (fun x : Nat => if x = 1 then Except.error 7 else Except.ok true) 2
      = ExecOutcome.terminated ∧
    ¬ ∃ e : Nat, parallel_count_if_custom_exc [0, 1]
        (fun x : Nat => if x = 1 then Except.error 7 else Except.ok true) 2
      = ExecOutcome.raised e := by
  refine ⟨rfl, ?_⟩
  rintro ⟨e, he⟩
  have h1 : (ExecOutcome.terminated : ExecOutcome Nat)
      = ExecOutcome.raised e := by
    rw [← he]; rfl
  exact ExecOutcome.noConfusion h1

/-- C8 amended: the call never returns a partial or silently-wrong
total — any returned count is the exact sequential count — and with
`K ≤ 1` a predicate failure propagates to the caller; but with
`K ≥ 2` a predicate failure in some chunk makes the exception escape
its worker thread, terminating the whole process (`std::terminate`)
instead of propagating the failure to the caller. -/
theorem claim_C8_amended (l : List α) (p : α → Except ε Bool) (K : Nat) :
    (∀ c, parallel_count_if_custom_exc l p K = ExecOutcome.ok c →
      count_if_exc l p = Except.ok c) ∧
    (∀ e, K ≤ 1 → count_if_exc l p = Except.error e →
      parallel_count_if_custom_exc l p K = ExecOutcome.raised e) ∧
    (2 ≤ K →
      (∃ s ∈ chunkSlices l (chunkLens l.length K),
        excIsError (count_if_exc s p) = true) →
      l.length ≠ 0 →
      parallel_count_if_custom_exc l p K = ExecOutcome.terminated) := by
  refine ⟨?_, ?_, ?_⟩
  · intro c h
    unfold parallel_count_if_custom_exc at h
    by_cases h0 : l.length = 0
    · rw [if_pos h0] at h
      have hc : c = 0 := by cases h; rfl
      have hl : l = [] := List.length_eq_zero.mp h0
      subst hl; subst hc; rfl
    · rw [if_neg h0] at h
      by_cases hK : K ≤ 1
      · rw [if_pos hK] at h
        cases hseq : count_if_exc l p with
        | ok c2 => rw [hseq] at h; cases h; rfl
        | error e => rw [hseq] at h; cases h
      · rw [if_neg hK] at h
        simp only at h
        by_cases hany : ((chunkSlices l (chunkLens l.length K)).map
            (fun s => count_if_exc s p)).any excIsError = true
        · rw [if_pos hany] at h; cases h
        · rw [if_neg hany] at h
          have hok : ∀ s ∈ chunkSlices l (chunkLens l.length K),
              excIsError (count_if_exc s p) = false := by
            intro s hs
            rcases Bool.eq_false_or_eq_true
              (excIsError (count_if_exc s p)) with ht | hf
            · exact absurd (List.any_eq_true.mpr
                ⟨count_if_exc s p, List.mem_map.mpr ⟨s, hs, rfl⟩, ht⟩) hany
            · exact hf
          have hchunks := count_if_exc_chunks (chunkLens l.length K) l p hok
          rw [chunkLens_sum _ _ (by omega), List.take_length] at hchunks
          rw [hchunks]
          cases h
          rw [List.map_map]
          rfl
  · intro e hK he
    unfold parallel_count_if_custom_exc
    by_cases h0 : l.length = 0
    · have hl : l = [] := List.length_eq_zero.mp h0
      subst hl
      cases he
    · rw [if_neg h0, if_pos hK, he]
  · intro hK hex h0
    unfold parallel_count_if_custom_exc
    rw [if_neg h0, if_neg (by omega : ¬ K ≤ 1)]
    simp only
    rcases hex with ⟨s, hs, herr⟩
    rw [if_pos (List.any_eq_true.mpr
      ⟨count_if_exc s p, List.mem_map.mpr ⟨s, hs, rfl⟩, herr⟩)]

/-- Witness for C8 (amended), at the counterexample input: the
predicate raises on element 1, `K = 2`, and the outcome is process
termination. -/
theorem claim_C8_amended_witness :
    parallel_count_if_custom_exc [0, 1]
        (fun x : Nat => if x = 1 then Except.error 7 else Except.ok true) 2
      = ExecOutcome.terminated :=
  (claim_C8_amended [0, 1]
      (fun x : Nat => if x = 1 then Except.error 7 else Except.ok true) 2).2.2
    (by decide)
    ⟨[1], by decide, by decide⟩
    (by decide)

/-! ### Timing harness model (claim C9)

`time_once` and `time_repeat` (src/main.cpp lines 57-77) measure a
counting operation. The operations timed by the harness are pure, so
each repetition returns the same count `fcount`; the wall-clock
durations are external inputs, passed as the list `ds` of the measured
elapsed times in measurement order (`ds.length = reps`). `double`
durations are embedded as rationals. -/

/-- Embedding of `time_once(f)`: one invocation of `f` paired with the
elapsed duration `d` the clock measured for it. -/
def time_once (fcount : Nat) (d : ℚ) : Nat × ℚ :=
  (fcount, d)

/-- Embedding of `time_repeat(f, reps)` for a pure `f` returning
`fcount`: the loop runs `time_once` once per repetition, keeping the
last count (`last_count`, 0 if the loop never runs) and pushing each
measured duration into `times`; then `times` is sorted ascending
(`std::sort`) and the element at index `times.size() / 2` is returned
with the count. -/
def time_repeat (fcount : Nat) (ds : List ℚ) : Nat × ℚ :=
  let last_count := if ds.isEmpty then 0 else fcount
  let times := (ds.map (fun d => (time_once fcount d).2)).mergeSort
    (fun a b => decide (a ≤ b))
  (last_count, times.getD (times.length / 2) 0)

/-- C9: with `reps ≥ 1` repetitions whose measured durations are `ds`,
`time_repeat` returns the operation's (pure) result together with the
middle element — index `reps / 2` — of the sorted list of the `reps`
measured durations: for any ascending sorted rearrangement `sorted` of
`ds`, the reported duration is `sorted[reps / 2]`. -/
theorem claim_C9 (fcount : Nat) (ds : List ℚ) (reps : Nat)
    (hlen : ds.length = reps) (hreps : 1 ≤ reps) :
    (time_repeat fcount ds).1 = fcount ∧
    ∀ sorted : List ℚ, sorted.Perm ds → sorted.Sorted (· ≤ ·) →
      (time_repeat fcount ds).2 = sorted.getD (reps / 2) 0 := by
  constructor
  · have hne : ds.isEmpty = false := by
      cases ds with
      | nil => simp at hlen; omega
      | cons d ds => rfl
    simp [time_repeat, hne]
  · intro sorted hperm hsorted
    have hmap : ds.map (fun d => (time_once fcount d).2) = ds := by
      simp [time_once]
    have hms : (ds.mergeSort (fun a b => decide (a ≤ b))).Sorted (· ≤ ·) := by
      have hpw := @List.sorted_mergeSort ℚ (fun a b : ℚ => decide (a ≤ b))
        (fun a b c hab hbc => by
          simp only [decide_eq_true_eq] at *
          exact le_trans hab hbc)
        (fun a b => by
          simp only [Bool.or_eq_true, decide_eq_true_eq]
          exact le_total a b)
        ds
      exact hpw.imp (fun h => by simpa using h)
    have hmp : (ds.mergeSort (fun a b => decide (a ≤ b))).Perm ds :=
      List.mergeSort_perm ds _
    have heq : ds.mergeSort (fun a b => decide (a ≤ b)) = sorted :=
      List.eq_of_perm_of_sorted (hmp.trans hperm.symm) hms hsorted
    simp only [time_repeat, hmap, heq]
    rw [hperm.length_eq, hlen]

/-- Witness for C9 at `reps = 5` with concrete durations
`[3, 1, 2, 5, 4]`: the count is returned unchanged and the reported
duration is the middle element of any sorted rearrangement. -/
theorem claim_C9_witness :
    (([3, 1, 2, 5, 4] : List ℚ).length = 5 ∧ 1 ≤ 5) ∧
    ((time_repeat 42 [3, 1, 2, 5, 4]).1 = 42 ∧
    ∀ sorted : List ℚ, sorted.Perm [3, 1, 2, 5, 4] →
      sorted.Sorted (· ≤ ·) →
      (time_repeat 42 [3, 1, 2, 5, 4]).2 = sorted.getD (5 / 2) 0) :=
  ⟨⟨by decide, by decide⟩, claim_C9 42 [3, 1, 2, 5, 4] 5 (by decide) (by decide)⟩

end Lab2
